import Mathlib

/-!
Verification of the letter-counting dataset generator
(`generate-letter-counting-dataset.py`).

The generator has two pure cores: a response renderer
(`build_assistant_response` / `build_sample`) and a sampling strategy
(`pick_letter_for_word` / `generate_samples`), plus a word-list loader
(`load_words`).  We embed them shallowly:

* Python strings become `String`; a queried letter is a single character
  (`Char`), matching the data model (letters are produced by `random.choice`
  over one-character strings).
* `str.lower()` becomes a per-character ASCII lowering (the inputs are ASCII
  words), `py_lower`.
* The pseudo-random generator is abstracted by the data it supplies: the
  shuffle outcome is an explicit permutation of the word pool, and each call
  to `pick_letter_for_word` consumes one `Draw` (the Boolean outcome of
  `rng.random() < 0.8` plus the index chosen by `rng.choice`, reduced modulo
  the sequence length).  `rng.choice` on an empty sequence raises in Python,
  which the embedding models with `Option`.
* Python's `list(set(word.lower()))` yields the distinct lowered characters
  in an order that the language does not determine from the inputs (string
  hashing is randomized per process); the embedding therefore takes that
  order as an explicit parameter `setOrder`, constrained in theorems to be a
  permutation of the distinct lowered characters.
-/

/-- Python `str.lower()` restricted to its per-character ASCII action:
lower each character of the string. -/
def py_lower (s : String) : String := ⟨s.toList.map Char.toLower⟩

/-- `spell_out`: the word as hyphen-separated characters, e.g. `s-t-r-a-w`. -/
def spell_out (word : String) : String :=
  String.intercalate "-" (word.toList.map String.singleton)

/-- The data shown on one `- Position …` line of the rendered response:
the 1-based position, the character in original case, whether it matched,
and the running count displayed on the line. -/
structure PosLine where
  idx : Nat
  char : Char
  isMatch : Bool
  cnt : Nat
deriving DecidableEq, Repr

/-- The per-position loop of `build_assistant_response` (lines 40–47 of the
source): walk the word with `enumerate(word, start=1)` carrying the running
`count`, recording one `PosLine` per character. -/
def check_lines_aux (target : Char) : List Char → Nat → Nat → List PosLine
  | [], _, _ => []
  | c :: cs, i, cnt =>
    if c.toLower == target then
      ⟨i, c, true, cnt + 1⟩ :: check_lines_aux target cs (i + 1) (cnt + 1)
    else
      ⟨i, c, false, cnt⟩ :: check_lines_aux target cs (i + 1) cnt

/-- The position lines for a word and (already lowered) target letter,
starting at position 1 and count 0 as the source does. -/
def check_lines (w : List Char) (target : Char) : List PosLine :=
  check_lines_aux target w 1 0

/-- The `count` accumulator of the same loop, as left after the last
iteration; this is the value interpolated into the final answer line. -/
def count_loop : List Char → Char → Nat → Nat
  | [], _, cnt => cnt
  | c :: cs, t, cnt => count_loop cs t (if c.toLower == t then cnt + 1 else cnt)

/-- Render one position line exactly as the two f-strings of the source do
(`MATCH` branch and `not {letter}` branch; the non-match branch interpolates
the letter as supplied, not lowered). -/
def render_pos_line (letter : Char) (p : PosLine) : String :=
  let i := p.idx
  let c := p.char
  let k := p.cnt
  if p.isMatch then s!"- Position {i}: {c} → MATCH (count = {k})"
  else s!"- Position {i}: {c} → not {letter} (count = {k})"

/-- The final answer f-string of `build_assistant_response`, including its
`"s" if count != 1 else ""` pluralization. -/
def final_answer_line (word : String) (letter : Char) (count : Nat) : String :=
  let s := if count != 1 then "s" else ""
  s!"\n**Answer: \"{letter}\" appears {count} time{s} in \"{word}\".**"

/-- `build_assistant_response`: the full step-by-step response, i.e. the
`"\n".join` of the Step 1 header, the Step 2 header, one line per position,
and the final answer line. -/
def build_assistant_response (word : String) (letter : Char) : String :=
  let target := letter.toLower
  let sp := spell_out word
  let body := (check_lines word.toList target).map (render_pos_line letter)
  let cnt := count_loop word.toList target 0
  String.intercalate "\n"
    (s!"Step 1 — Spell it out: {sp}\n" :: "Step 2 — Check each letter:" ::
      (body ++ [final_answer_line word letter cnt]))

/-- One chat message (a Python `{"role": …, "content": …}` dict). -/
structure Message where
  role : String
  content : String
deriving DecidableEq, Repr

/-- One dataset entry: the `messages` list built by `build_sample`. -/
structure Sample where
  messages : List Message
deriving DecidableEq, Repr

/-- `build_sample`: the user question paired with the rendered assistant
response. -/
def build_sample (word : String) (letter : Char) : Sample :=
  { messages :=
      [⟨"user", s!"How many times does the letter \"{letter}\" appear in \"{word}\"?"⟩,
       ⟨"assistant", build_assistant_response word letter⟩] }

/-- The number of case-insensitive occurrences of `letter` in `word` (the
specification's "true count"). -/
def true_count (word : String) (letter : Char) : Nat :=
  word.toList.countP (fun c => c.toLower == letter.toLower)

/-- The data one call of `pick_letter_for_word` consumes from the shared
generator: the outcome of `rng.random() < 0.8` and the index drawn by the
subsequent `rng.choice`, to be reduced modulo the sequence length. -/
structure Draw where
  biased : Bool
  idx : Nat
deriving DecidableEq, Repr

/-- `rng.choice(seq)` with the drawn index abstracted: some element at a
valid index for a nonempty sequence, `none` (Python: `IndexError`) on an
empty one. -/
def choice {α : Type} (l : List α) (i : Nat) : Option α :=
  l[i % l.length]?

/-- The distinct characters of `word.lower()`, i.e. the elements of Python's
`set(word.lower())` (in some canonical order; the set's actual iteration
order is a separate parameter wherever it matters). -/
def distinct_lower (word : String) : List Char :=
  (py_lower word).toList.dedup

/-- `pick_letter_for_word`: with the biased branch, `rng.choice` over
`list(set(word.lower()))` — whose element order `setOrder` Python does not
determine from the inputs — otherwise `rng.choice` over the alphabet. -/
def pick_letter_for_word (word : String) (setOrder : List Char) (d : Draw) :
    Option Char :=
  if d.biased then choice setOrder d.idx
  else choice "abcdefghijklmnopqrstuvwxyz".toList d.idx

/-- The word pool of `generate_samples`: `words * (n_samples // len(words) + 1)`. -/
def word_pool (words : List String) (n_samples : Nat) : List String :=
  (List.replicate (n_samples / words.length + 1) words).flatten

/-- The words actually paired with letters: `word_pool[:n_samples]` applied
to the shuffled pool. -/
def chosen_words (n_samples : Nat) (shuffled : List String) : List String :=
  shuffled.take n_samples

/-- The sample-building comprehension of `generate_samples`, one letter draw
per word in sequence (`i` indexes the draws); `none` if any `rng.choice`
raises. -/
def generate_samples_aux (so : Nat → List Char) (dr : Nat → Draw) :
    Nat → List String → Option (List Sample)
  | _, [] => some []
  | i, w :: rest =>
    match pick_letter_for_word w (so i) (dr i) with
    | none => none
    | some c =>
      match generate_samples_aux so dr (i + 1) rest with
      | none => none
      | some r => some (build_sample w c :: r)

/-- `generate_samples`, with the generator abstracted: `shuffled` is the
outcome of `rng.shuffle(word_pool)`, `so i` the iteration order of
`set(word.lower())` at step `i`, `dr i` the generator data consumed by the
`i`-th `pick_letter_for_word` call. -/
def generate_samples (words : List String) (n_samples : Nat)
    (shuffled : List String) (so : Nat → List Char) (dr : Nat → Draw) :
    Option (List Sample) :=
  generate_samples_aux so dr 0 (chosen_words n_samples shuffled)

/-- `load_words` on the lines of the input file: strip each line, drop empty
lines, raise `ValueError` if nothing is left, then filter to length 3–20. -/
def load_words (fileLines : List String) : Except String (List String) :=
  let words := (fileLines.map String.trim).filter (fun l => l ≠ "")
  if words.isEmpty then Except.error "No words found"
  else Except.ok (words.filter (fun w => 3 ≤ w.length && w.length ≤ 20))

/-! ### Basic lemmas about the response-rendering loop -/

/-- The match predicate the loop tests at each character. -/
def match_pred (target : Char) : Char → Bool := fun c => c.toLower == target

theorem count_loop_eq (l : List Char) (t : Char) :
    ∀ n, count_loop l t n = n + l.countP (match_pred t) := by
  induction l with
  | nil => intro n; simp [count_loop]
  | cons c cs ih =>
    intro n
    simp only [count_loop, List.countP_cons, ih, match_pred]
    by_cases h : (c.toLower == t) = true <;> simp [h] <;> omega

theorem check_lines_aux_length (t : Char) :
    ∀ (l : List Char) (i n : Nat), (check_lines_aux t l i n).length = l.length := by
  intro l
  induction l with
  | nil => intro i n; simp [check_lines_aux]
  | cons c cs ih =>
    intro i n
    by_cases h : (c.toLower == t) = true <;>
      simp [check_lines_aux, h, ih]

theorem check_lines_aux_getElem? (t : Char) :
    ∀ (l : List Char) (i n j : Nat) (c : Char), l[j]? = some c →
      (check_lines_aux t l i n)[j]? =
        some ⟨i + j, c, c.toLower == t,
          n + (l.take (j + 1)).countP (match_pred t)⟩ := by
  intro l
  induction l with
  | nil => intro i n j c h; simp at h
  | cons a as ih =>
    intro i n j c h
    cases j with
    | zero =>
      obtain rfl : a = c := by simpa using h
      by_cases ha : (a.toLower == t) = true <;>
        simp [check_lines_aux, ha, List.countP_cons, match_pred]
    | succ j =>
      simp only [List.getElem?_cons_succ] at h
      by_cases ha : (a.toLower == t) = true
      · simp only [check_lines_aux, if_pos ha, List.getElem?_cons_succ]
        rw [ih (i + 1) (n + 1) j c h]
        have h1 : i + 1 + j = i + (j + 1) := by omega
        have hm : match_pred t a = true := ha
        have hc : ((a :: as).take (j + 1 + 1)).countP (match_pred t) =
            (as.take (j + 1)).countP (match_pred t) + 1 := by
          rw [List.take_succ_cons, List.countP_cons, hm]
          simp
        have h2 : n + 1 + (as.take (j + 1)).countP (match_pred t) =
            n + ((a :: as).take (j + 1 + 1)).countP (match_pred t) := by
          rw [hc]; omega
        rw [h1, h2]
      · simp only [check_lines_aux, if_neg ha, List.getElem?_cons_succ]
        rw [ih (i + 1) n j c h]
        have h1 : i + 1 + j = i + (j + 1) := by omega
        have hm : match_pred t a = false := by
          simp only [match_pred, Bool.not_eq_true] at ha ⊢
          exact ha
        have hc : ((a :: as).take (j + 1 + 1)).countP (match_pred t) =
            (as.take (j + 1)).countP (match_pred t) := by
          rw [List.take_succ_cons, List.countP_cons, hm]
          simp
        have h2 : n + (as.take (j + 1)).countP (match_pred t) =
            n + ((a :: as).take (j + 1 + 1)).countP (match_pred t) := by
          rw [hc]
        rw [h1, h2]

theorem check_lines_getElem (word : String) (t : Char) (j : Nat)
    (h : j < word.toList.length) :
    (check_lines word.toList t)[j]? =
      some ⟨1 + j, word.toList[j], (word.toList[j]).toLower == t,
        (word.toList.take (j + 1)).countP (match_pred t)⟩ := by
  have hm := check_lines_aux_getElem? t word.toList 1 0 j (word.toList[j])
    (List.getElem?_eq_getElem h)
  simpa [check_lines] using hm

theorem countP_take_succ (l : List Char) (p : Char → Bool) (j : Nat)
    (h : j < l.length) :
    (l.take (j + 1)).countP p = (l.take j).countP p + (if p l[j] then 1 else 0) := by
  rw [List.take_succ, List.getElem?_eq_getElem h]
  rw [List.countP_append]
  simp [List.countP_cons]

/-- C1: for every word and letter, the running count on the last position
line of the rendered response, and the count interpolated into the final
answer line (`count_loop` after the whole word), both equal the true number
of case-insensitive occurrences of the letter in the word. -/
theorem final_count_correct (word : String) (letter : Char) :
    count_loop word.toList letter.toLower 0 = true_count word letter ∧
    ∀ p, (check_lines word.toList letter.toLower).getLast? = some p →
      p.cnt = true_count word letter := by
  have hcl : count_loop word.toList letter.toLower 0 = true_count word letter := by
    rw [count_loop_eq, Nat.zero_add]
    rfl
  refine ⟨hcl, ?_⟩
  intro p hp
  have hlen := check_lines_aux_length letter.toLower word.toList 1 0
  rw [List.getLast?_eq_getElem?] at hp
  rcases Nat.eq_zero_or_pos word.toList.length with h0 | h0
  · have hz : (check_lines word.toList letter.toLower).length = 0 := by
      rw [check_lines, hlen, h0]
    rw [List.getElem?_eq_none (by omega)] at hp
    exact absurd hp (by simp)
  · have hj : word.toList.length - 1 < word.toList.length := by omega
    have hmaster := check_lines_getElem word letter.toLower (word.toList.length - 1) hj
    rw [check_lines] at hp hmaster
    rw [hlen] at hp
    rw [hmaster] at hp
    obtain rfl := Option.some_inj.mp hp
    show (word.toList.take (word.toList.length - 1 + 1)).countP
        (match_pred letter.toLower) = true_count word letter
    have he : word.toList.length - 1 + 1 = word.toList.length := by omega
    rw [he, List.take_length]
    rfl

/-- Concrete instantiation of `final_count_correct` at the specification's
`straw`/`s` example: the last position line reports count 1, the true count. -/
theorem final_count_correct_witness :
    count_loop "straw".toList 's'.toLower 0 = true_count "straw" 's' ∧
    (⟨5, 'w', false, 1⟩ : PosLine).cnt = true_count "straw" 's' :=
  ⟨(final_count_correct "straw" 's').1,
   (final_count_correct "straw" 's').2 ⟨5, 'w', false, 1⟩ (by decide)⟩

theorem check_lines_aux_head? (t : Char) :
    ∀ (l : List Char) (i n : Nat) (p : PosLine),
      (check_lines_aux t l i n).head? = some p →
      p.cnt = n + (if p.isMatch then 1 else 0) := by
  intro l i n p hp
  cases l with
  | nil => simp [check_lines_aux] at hp
  | cons a as =>
    by_cases ha : (a.toLower == t) = true
    · simp only [check_lines_aux, if_pos ha, List.head?_cons,
        Option.some_inj] at hp
      subst hp
      simp
    · simp only [check_lines_aux, if_neg ha, List.head?_cons,
        Option.some_inj] at hp
      subst hp
      simp

theorem check_lines_aux_chain (t : Char) :
    ∀ (l : List Char) (i n : Nat),
      List.Chain' (fun p q => q.cnt = p.cnt + if q.isMatch then 1 else 0)
        (check_lines_aux t l i n) := by
  intro l
  induction l with
  | nil => intro i n; simp [check_lines_aux]
  | cons a as ih =>
    intro i n
    by_cases ha : (a.toLower == t) = true
    · simp only [check_lines_aux, if_pos ha]
      rw [List.chain'_cons']
      refine ⟨?_, ih (i + 1) (n + 1)⟩
      intro q hq
      have hh := check_lines_aux_head? t as (i + 1) (n + 1) q hq
      simpa using hh
    · simp only [check_lines_aux, if_neg ha]
      rw [List.chain'_cons']
      refine ⟨?_, ih (i + 1) n⟩
      intro q hq
      have hh := check_lines_aux_head? t as (i + 1) n q hq
      simpa using hh

/-- C5: across the position lines of a rendered explanation, the first line
shows 1 on a MATCH and 0 otherwise, each later line shows the previous count
plus 1 exactly when it is a MATCH line (and plus 0 otherwise), and the count
sequence is non-decreasing — it never resets mid-word. -/
theorem response_counts_chain (word : String) (letter : Char) :
    (∀ p, (check_lines word.toList letter.toLower).head? = some p →
        p.cnt = if p.isMatch then 1 else 0) ∧
    List.Chain' (fun p q => q.cnt = p.cnt + if q.isMatch then 1 else 0)
      (check_lines word.toList letter.toLower) ∧
    List.Chain' (fun p q => p.cnt ≤ q.cnt)
      (check_lines word.toList letter.toLower) := by
  have hlen := check_lines_aux_length letter.toLower word.toList 1 0
  have hstep : List.Chain' (fun p q => q.cnt = p.cnt + if q.isMatch then 1 else 0)
      (check_lines word.toList letter.toLower) :=
    check_lines_aux_chain letter.toLower word.toList 1 0
  refine ⟨?_, hstep, hstep.imp ?_⟩
  · intro p hp
    rw [List.head?_eq_getElem?] at hp
    rcases Nat.eq_zero_or_pos word.toList.length with h0 | h0
    · rw [List.getElem?_eq_none (by rw [check_lines, hlen]; omega)] at hp
      exact absurd hp (by simp)
    · have hg := check_lines_getElem word letter.toLower 0 h0
      rw [hg] at hp
      obtain rfl := Option.some_inj.mp hp
      show (word.toList.take 1).countP (match_pred letter.toLower) = _
      have h1 := countP_take_succ word.toList (match_pred letter.toLower) 0 h0
      simp only [List.take_zero, List.countP_nil, Nat.zero_add] at h1
      exact h1
  · intro p q h
    by_cases hm : q.isMatch <;> simp [hm] at h <;> omega

/-- Concrete instantiation of `response_counts_chain` at `straw`/`s`:
the first line is the MATCH line with count 1, and the chain facts hold for
the rendered lines. -/
theorem response_counts_chain_witness :
    (⟨1, 's', true, 1⟩ : PosLine).cnt =
      (if (⟨1, 's', true, 1⟩ : PosLine).isMatch then 1 else 0) ∧
    List.Chain' (fun p q => q.cnt = p.cnt + if q.isMatch then 1 else 0)
      (check_lines "straw".toList 's'.toLower) :=
  ⟨(response_counts_chain "straw" 's').1 ⟨1, 's', true, 1⟩ (by decide),
   (response_counts_chain "straw" 's').2.1⟩

/-- C10: the rendered response has exactly one position line per character
of the word, in order: line `j` (0-based) carries position index `j + 1` and
the `j`-th character of the word in its original case. -/
theorem position_lines_structure (word : String) (letter : Char) :
    (check_lines word.toList letter.toLower).length = word.length ∧
    ∀ j p, (check_lines word.toList letter.toLower)[j]? = some p →
      p.idx = j + 1 ∧ word.toList[j]? = some p.char := by
  have hlen := check_lines_aux_length letter.toLower word.toList 1 0
  constructor
  · rw [check_lines, hlen]; rfl
  · intro j p hp
    have hj : j < word.toList.length := by
      by_contra hge
      rw [List.getElem?_eq_none (by rw [check_lines, hlen]; omega)] at hp
      exact absurd hp (by simp)
    have hg := check_lines_getElem word letter.toLower j hj
    rw [hg] at hp
    obtain rfl := Option.some_inj.mp hp
    exact ⟨by show 1 + j = j + 1; omega, List.getElem?_eq_getElem hj⟩

/-- Concrete instantiation of `position_lines_structure` at `straw`/`s` and
the third line: it shows position 3 and the character `r`. -/
theorem position_lines_structure_witness :
    (check_lines "straw".toList 's'.toLower).length = "straw".length ∧
    ((⟨3, 'r', false, 1⟩ : PosLine).idx = 2 + 1 ∧
      "straw".toList[2]? = some (⟨3, 'r', false, 1⟩ : PosLine).char) :=
  ⟨(position_lines_structure "straw" 's').1,
   (position_lines_structure "straw" 's').2 2 ⟨3, 'r', false, 1⟩ (by decide)⟩

/-- C6: the final answer line of the rendered response reads `1 time` when
the total count is 1, and `{n} times` for every other total, including 0;
the total it shows is the loop's final count. -/
theorem final_answer_pluralization (word : String) (letter : Char) :
    final_answer_line word letter (count_loop word.toList letter.toLower 0) =
      if true_count word letter = 1 then
        s!"\n**Answer: \"{letter}\" appears 1 time in \"{word}\".**"
      else
        s!"\n**Answer: \"{letter}\" appears {true_count word letter} times in \"{word}\".**" := by
  have hc : count_loop word.toList letter.toLower 0 = true_count word letter := by
    rw [count_loop_eq, Nat.zero_add]; rfl
  rw [hc]
  by_cases h : true_count word letter = 1
  · rw [if_pos h, h]
    simp only [final_answer_line]
    norm_num
    congr 1
  · rw [if_neg h]
    have hb : (true_count word letter != 1) = true := by simpa using h
    simp only [final_answer_line, hb, if_pos]
    simp only [String.append_assoc]
    congr 1

/-! ### Character-case lemmas -/

theorem uint32_le_iff (x y : UInt32) : x ≤ y ↔ x.toNat ≤ y.toNat := by
  rw [UInt32.le_def, BitVec.le_def]
  exact Iff.rfl

theorem char_le_iff_toNat (x y : Char) : x ≤ y ↔ x.toNat ≤ y.toNat := by
  rw [Char.le_def, UInt32.le_def, BitVec.le_def]
  exact Iff.rfl

theorem char_toNat_ofNat_valid (n : Nat) (h : n < 55296) :
    (Char.ofNat n).toNat = n := by
  have hv : n.isValidChar := Or.inl (by omega)
  rw [Char.ofNat, dif_pos hv]
  simp [Char.ofNatAux, Char.toNat, UInt32.toNat]

theorem toLower_toLower (c : Char) : c.toLower.toLower = c.toLower := by
  unfold Char.toLower
  by_cases h : c.toNat ≥ 65 ∧ c.toNat ≤ 90
  · rw [if_pos h]
    have ht : (Char.ofNat (c.toNat + 32)).toNat = c.toNat + 32 :=
      char_toNat_ofNat_valid _ (by omega)
    rw [if_neg (by rw [ht]; omega)]
  · rw [if_neg h, if_neg h]

theorem toLower_range_of_isAlpha (c : Char) (h : c.isAlpha = true) :
    'a' ≤ c.toLower ∧ c.toLower ≤ 'z' := by
  simp only [Char.isAlpha, Char.isUpper, Char.isLower, Bool.or_eq_true,
    Bool.and_eq_true, decide_eq_true_eq, ge_iff_le] at h
  unfold Char.toLower
  rcases h with ⟨h1, h2⟩ | ⟨h1, h2⟩
  · rw [uint32_le_iff] at h1 h2
    have h1n : 65 ≤ c.toNat := h1
    have h2n : c.toNat ≤ 90 := h2
    rw [if_pos ⟨h1n, h2n⟩]
    have ht : (Char.ofNat (c.toNat + 32)).toNat = c.toNat + 32 :=
      char_toNat_ofNat_valid _ (by omega)
    rw [char_le_iff_toNat, char_le_iff_toNat, ht]
    constructor
    · show 97 ≤ _; omega
    · show _ ≤ 122; omega
  · rw [uint32_le_iff] at h1 h2
    have h1n : 97 ≤ c.toNat := h1
    have h2n : c.toNat ≤ 122 := h2
    rw [if_neg (by omega)]
    rw [char_le_iff_toNat, char_le_iff_toNat]
    constructor
    · show 97 ≤ _; exact h1n
    · show _ ≤ 122; exact h2n

/-! ### Letter sampling -/

theorem choice_mem {α : Type} {l : List α} {i : Nat} {a : α}
    (h : choice l i = some a) : a ∈ l := by
  rw [choice] at h
  exact List.getElem?_mem h

/-- C8: whenever `pick_letter_for_word` takes the biased branch, the letter
it returns is a character of the lowered word, hence the loop count of the
resulting sample's response is at least 1. -/
theorem biased_pick_has_positive_count (word : String) (setOrder : List Char)
    (d : Draw) (c : Char) (hb : d.biased = true)
    (hperm : setOrder.Perm (distinct_lower word))
    (hpick : pick_letter_for_word word setOrder d = some c) :
    c ∈ (py_lower word).toList ∧ 1 ≤ count_loop word.toList c.toLower 0 := by
  rw [pick_letter_for_word, if_pos hb] at hpick
  have hmem : c ∈ setOrder := choice_mem hpick
  have hmem2 : c ∈ distinct_lower word := hperm.mem_iff.mp hmem
  rw [distinct_lower, List.mem_dedup] at hmem2
  refine ⟨hmem2, ?_⟩
  rw [count_loop_eq, Nat.zero_add]
  have hx : ∃ a ∈ word.toList, a.toLower = c := by
    have : (py_lower word).toList = word.toList.map Char.toLower := rfl
    rw [this, List.mem_map] at hmem2
    exact hmem2
  obtain ⟨a, ha, rfl⟩ := hx
  have hp : match_pred a.toLower a = true := by
    simp [match_pred, toLower_toLower]
  rw [toLower_toLower]
  exact List.countP_pos_iff.mpr ⟨a, ha, hp⟩

/-- Concrete instantiation of `biased_pick_has_positive_count`: on `abc`
with set order `a,b,c` and a biased draw of index 0 the pick is `a`, which
occurs in the word, so the response's final count is at least 1. -/
theorem biased_pick_has_positive_count_witness :
    'a' ∈ (py_lower "abc").toList ∧ 1 ≤ count_loop "abc".toList 'a'.toLower 0 :=
  biased_pick_has_positive_count "abc" ['a', 'b', 'c'] ⟨true, 0⟩ 'a'
    rfl (by decide) (by decide)

/-- C9: for an alphabetic word, every letter `pick_letter_for_word` can
return — whichever branch is taken and whatever the set iteration order —
is a single lowercase character in the range `a`–`z`. -/
theorem pick_letter_lowercase (word : String) (setOrder : List Char)
    (d : Draw) (c : Char)
    (hperm : setOrder.Perm (distinct_lower word))
    (halpha : ∀ a ∈ word.toList, a.isAlpha = true)
    (hpick : pick_letter_for_word word setOrder d = some c) :
    'a' ≤ c ∧ c ≤ 'z' := by
  rw [pick_letter_for_word] at hpick
  by_cases hb : d.biased = true
  · rw [if_pos hb] at hpick
    have hmem : c ∈ distinct_lower word := hperm.mem_iff.mp (choice_mem hpick)
    rw [distinct_lower, List.mem_dedup] at hmem
    have hrw : (py_lower word).toList = word.toList.map Char.toLower := rfl
    rw [hrw, List.mem_map] at hmem
    obtain ⟨a, ha, rfl⟩ := hmem
    exact toLower_range_of_isAlpha a (halpha a ha)
  · rw [if_neg hb] at hpick
    have hmem : c ∈ "abcdefghijklmnopqrstuvwxyz".toList := choice_mem hpick
    have hall : ∀ x ∈ "abcdefghijklmnopqrstuvwxyz".toList,
        'a' ≤ x ∧ x ≤ 'z' := by decide
    exact hall c hmem

/-- Concrete instantiation of `pick_letter_lowercase`: on `abc` with an
unbiased draw of index 0 the pick is `a`, which lies in `a`–`z`. -/
theorem pick_letter_lowercase_witness : 'a' ≤ 'a' ∧ 'a' ≤ 'z' :=
  pick_letter_lowercase "abc" ['a', 'b', 'c'] ⟨false, 0⟩ 'a'
    (by decide) (by decide) (by decide)

/-! ### Word-pool coverage -/

theorem count_flatten_replicate (w : String) (ws : List String) :
    ∀ k, List.count w (List.flatten (List.replicate k ws)) =
      k * List.count w ws := by
  intro k
  induction k with
  | zero => simp
  | succ k ih =>
    rw [List.replicate_succ, List.flatten_cons, List.count_append, ih]
    ring

set_option maxRecDepth 4000 in
/-- C2 counterexample: with words `aaa, bbb` and N = 4 (so both the floor
and the ceiling of N over the word count are 2), the shuffle outcome that
clusters the three copies of `aaa` first is a permutation of the word pool,
yet the first four chosen words contain `bbb` once and `aaa` three times —
neither count is 2, so the claimed bounds fail for this shuffle outcome. -/
theorem coverage_claim_counterexample :
    List.Perm ["aaa", "aaa", "aaa", "bbb", "bbb", "bbb"]
      (word_pool ["aaa", "bbb"] 4) ∧
    (4 : Nat) / 2 = 2 ∧ (4 + 2 - 1) / 2 = 2 ∧
    List.count "bbb"
      (chosen_words 4 ["aaa", "aaa", "aaa", "bbb", "bbb", "bbb"]) = 1 ∧
    List.count "aaa"
      (chosen_words 4 ["aaa", "aaa", "aaa", "bbb", "bbb", "bbb"]) = 3 ∧
    generate_samples ["aaa", "bbb"] 4
        ["aaa", "aaa", "aaa", "bbb", "bbb", "bbb"]
        (fun _ => []) (fun _ => ⟨false, 0⟩) =
      some [build_sample "aaa" 'a', build_sample "aaa" 'a',
        build_sample "aaa" 'a', build_sample "bbb" 'a'] := by
  refine ⟨by decide, by decide, by decide, by decide, by decide, ?_⟩
  rfl

/-- C2 (amended): for a duplicate-free word list, every word appears at most
`N / |words| + 1` times among the chosen words, for every shuffle outcome of
the pool. -/
theorem coverage_upper_bound (words : List String) (n : Nat)
    (shuffled : List String) (w : String)
    (hnd : words.Nodup) (hw : w ∈ words)
    (hperm : shuffled.Perm (word_pool words n)) :
    List.count w (chosen_words n shuffled) ≤ n / words.length + 1 := by
  have h1 : List.count w (chosen_words n shuffled) ≤ List.count w shuffled :=
    (List.take_sublist n shuffled).count_le w
  have h2 : List.count w shuffled = List.count w (word_pool words n) :=
    hperm.count_eq w
  have h3 : List.count w (word_pool words n) =
      (n / words.length + 1) * List.count w words :=
    count_flatten_replicate w words (n / words.length + 1)
  have h4 : List.count w words = 1 := List.count_eq_one_of_mem hnd hw
  rw [h4, Nat.mul_one] at h3
  omega

/-- Concrete instantiation of `coverage_upper_bound` on the counterexample
shuffle: `aaa` occurs 3 times among the four chosen words, within the bound
`4 / 2 + 1 = 3`. -/
theorem coverage_upper_bound_witness :
    List.count "aaa"
      (chosen_words 4 ["aaa", "aaa", "aaa", "bbb", "bbb", "bbb"]) ≤
      4 / 2 + 1 :=
  coverage_upper_bound ["aaa", "bbb"] 4
    ["aaa", "aaa", "aaa", "bbb", "bbb", "bbb"] "aaa"
    (by decide) (by decide) (by decide)

/-- C3: a file line that survives stripping but is shorter than 3 characters
leaves `load_words` with an empty filtered list, and `load_words` returns it
without raising — the `No words found` check runs before the length filter,
so no descriptive error is produced for a list that is empty only after
filtering. -/
theorem load_words_empty_after_filter :
    load_words ["ab"] = Except.ok [] := by
  with_unfolding_all rfl

/-- C4: with the word `abc`, the same biased draw of index 0, and two set
iteration orders that are both permutations of the distinct lowered
characters, `pick_letter_for_word` returns `a` under one order and `c`
under the other: the output depends on the iteration order of
`set(word.lower())`, which Python does not determine from the word list,
sample count and seed. -/
theorem pick_letter_set_order_dependence :
    List.Perm ['a', 'b', 'c'] (distinct_lower "abc") ∧
    List.Perm ['c', 'b', 'a'] (distinct_lower "abc") ∧
    pick_letter_for_word "abc" ['a', 'b', 'c'] ⟨true, 0⟩ = some 'a' ∧
    pick_letter_for_word "abc" ['c', 'b', 'a'] ⟨true, 0⟩ = some 'c' := by
  decide

/-! ### Sample generation -/

theorem generate_samples_aux_spec (so : Nat → List Char) (dr : Nat → Draw) :
    ∀ (l : List String) (i0 : Nat),
      (∀ j w, l[j]? = some w →
        (pick_letter_for_word w (so (i0 + j)) (dr (i0 + j))).isSome) →
      ∃ r, generate_samples_aux so dr i0 l = some r ∧
        r.length = l.length ∧
        ∀ s ∈ r, s.messages.map Message.role = ["user", "assistant"] := by
  intro l
  induction l with
  | nil => intro i0 h; exact ⟨[], rfl, rfl, by simp⟩
  | cons w rest ih =>
    intro i0 h
    have h0 : (pick_letter_for_word w (so i0) (dr i0)).isSome := by
      have hh := h 0 w (by simp)
      simpa using hh
    obtain ⟨c, hc⟩ := Option.isSome_iff_exists.mp h0
    have hrec : ∀ j v, rest[j]? = some v →
        (pick_letter_for_word v (so (i0 + 1 + j)) (dr (i0 + 1 + j))).isSome := by
      intro j v hv
      have hh := h (j + 1) v (by simpa using hv)
      have harith : i0 + (j + 1) = i0 + 1 + j := by omega
      rwa [harith] at hh
    obtain ⟨r, hr, hlen, hroles⟩ := ih (i0 + 1) hrec
    refine ⟨build_sample w c :: r, ?_, by simp [hlen], ?_⟩
    · simp only [generate_samples_aux, hc, hr]
    · intro s hs
      rcases List.mem_cons.mp hs with rfl | hs
      · rfl
      · exact hroles s hs

/-- C7: for a non-empty word list whose entries have length 3–20, any
shuffle outcome of the pool, any set iteration orders matching the chosen
words, and any draw sequence, `generate_samples` succeeds and returns
exactly `n` samples, each a user message followed by an assistant
message. -/
theorem generate_samples_count_and_shape (words : List String) (n : Nat)
    (shuffled : List String) (so : Nat → List Char) (dr : Nat → Draw)
    (hne : words ≠ [])
    (hlen3 : ∀ w ∈ words, 3 ≤ w.length ∧ w.length ≤ 20)
    (hperm : shuffled.Perm (word_pool words n))
    (hso : ∀ j w, (chosen_words n shuffled)[j]? = some w →
        (so j).Perm (distinct_lower w)) :
    ∃ r, generate_samples words n shuffled so dr = some r ∧
      r.length = n ∧
      ∀ s ∈ r, s.messages.map Message.role = ["user", "assistant"] := by
  have hL : 0 < words.length := List.length_pos.mpr hne
  have hpool : (word_pool words n).length =
      (n / words.length + 1) * words.length := by
    rw [word_pool]
    simp [List.length_flatten, List.map_replicate, List.sum_replicate,
      smul_eq_mul, Nat.mul_comm]
  have hge : n ≤ shuffled.length := by
    rw [hperm.length_eq, hpool]
    have hmod := Nat.div_add_mod n words.length
    have hlt := Nat.mod_lt n hL
    have h1 : (n / words.length + 1) * words.length =
        words.length * (n / words.length) + words.length := by ring
    omega
  have hchosen_len : (chosen_words n shuffled).length = n := by
    rw [chosen_words, List.length_take]
    omega
  have hmem_words : ∀ w ∈ chosen_words n shuffled, w ∈ words := by
    intro w hw
    have hw1 : w ∈ shuffled := (List.take_sublist n shuffled).subset hw
    have hw2 : w ∈ word_pool words n := hperm.mem_iff.mp hw1
    rw [word_pool] at hw2
    obtain ⟨l2, hl2, hwl⟩ := List.mem_flatten.mp hw2
    obtain rfl := List.eq_of_mem_replicate hl2
    exact hwl
  have hpick : ∀ j w, (chosen_words n shuffled)[j]? = some w →
      (pick_letter_for_word w (so (0 + j)) (dr (0 + j))).isSome := by
    intro j w hj
    rw [Nat.zero_add]
    have hwmem : w ∈ chosen_words n shuffled := List.getElem?_mem hj
    have hw3 : 3 ≤ w.length := (hlen3 w (hmem_words w hwmem)).1
    have hperm_so := hso j w hj
    rw [pick_letter_for_word]
    by_cases hb : (dr j).biased = true
    · rw [if_pos hb]
      have hdnn : distinct_lower w ≠ [] := by
        rw [distinct_lower, Ne, List.dedup_eq_nil]
        intro hnil
        have hz : (py_lower w).toList.length = 0 := by rw [hnil]; rfl
        have hlenw : (py_lower w).toList.length = w.length := by
          show (w.toList.map Char.toLower).length = w.length
          rw [List.length_map]
          rfl
        omega
      have hlen_pos : 0 < (so j).length := by
        rw [hperm_so.length_eq]
        exact List.length_pos.mpr hdnn
      rw [choice]
      have hidx : (dr j).idx % (so j).length < (so j).length :=
        Nat.mod_lt _ hlen_pos
      simp [List.getElem?_eq_getElem hidx]
    · rw [if_neg hb]
      rw [choice]
      have hidx : (dr j).idx % ("abcdefghijklmnopqrstuvwxyz".toList).length <
          ("abcdefghijklmnopqrstuvwxyz".toList).length :=
        Nat.mod_lt _ (by decide)
      rw [List.getElem?_eq_getElem hidx]
      rfl
  obtain ⟨r, hr, hlen, hroles⟩ :=
    generate_samples_aux_spec so dr (chosen_words n shuffled) 0 hpick
  exact ⟨r, by rw [generate_samples]; exact hr, by rw [hlen, hchosen_len], hroles⟩

/-- Concrete instantiation of `generate_samples_count_and_shape`: one sample
from the single word `abc`, with the identity shuffle of its pool and a
biased draw. -/
theorem generate_samples_count_and_shape_witness :
    ∃ r, generate_samples ["abc"] 1 ["abc", "abc"]
        (fun _ => ['a', 'b', 'c']) (fun _ => ⟨true, 0⟩) = some r ∧
      r.length = 1 ∧
      ∀ s ∈ r, s.messages.map Message.role = ["user", "assistant"] :=
  generate_samples_count_and_shape ["abc"] 1 ["abc", "abc"]
    (fun _ => ['a', 'b', 'c']) (fun _ => ⟨true, 0⟩)
    (by decide) (by decide) (by decide)
    (by
      intro j w h
      cases j with
      | zero =>
        simp [chosen_words] at h
        subst h
        decide
      | succ j =>
        simp [chosen_words] at h)
